import Mathlib

/-
  Verification of the BitcoinArmory block-file reader and blockchain scanner
  against its natural-language specification.

  Shallow embedding of:
  - `scanFor` (pointer version), `readRawBlocksFromFile`, `readHeadersFromFile`,
    `detectAllBlkFiles`, `stripQuotes` from cppForSwig/BlockUtils.cpp;
  - `BlockchainScanner::scan`, `readBlockData`, `scanBlockData` (txout/txin passes),
    `accumulateDataBeforeBatchWrite`, `writeBlockData`, `processAndCommitTxHints`
    from the BlockchainScanner translation unit.

  Bytes are modelled as `Nat`; machine-integer wrap-around (size_t) is made
  explicit where the source relies on it.  Loops are modelled by structural
  recursion on an explicit fuel argument whenever the source loop's iteration
  count is bounded by an obvious quantity (the buffer length, the file count
  bound); every fuel value supplied by a wrapper provably dominates the
  iteration count of the source loop, so the fuel-exhaustion branch is dead.
-/

namespace Armory

abbrev Byte := Nat

/-! ## scanFor, pointer version (BlockUtils.cpp lines 57-81)

    The do/while loop compares `in[i]` with `bytes[i]` for `i < len` at the
    current offset (the pointer `in` having been advanced `offset` times),
    returns the offset on a full match, and otherwise advances while
    `offset + len < inLen`.  `UINT64_MAX` (no occurrence) is modelled as
    `none`.  The comparison of the `len` bytes at `offset` is modelled as a
    list equality on the slice. -/

/-- Comparison performed by the body of the do/while loop of `scanFor`:
    the `bytes.length` bytes of `inb` starting at `offset` equal `bytes`. -/
def scanForChk (inb bytes : List Byte) (offset : Nat) : Bool :=
  decide ((inb.drop offset).take bytes.length = bytes)

/-- The do/while loop of the pointer `scanFor`.  The fuel only bounds the
    iteration count; `scanFor` supplies `inb.length + 1`, which dominates the
    loop's `offset + 1 + len < inLen` guard, so the fuel never runs out. -/
def scanForGo (inb bytes : List Byte) : Nat → Nat → Option Nat
  | 0, _ => none
  | fuel + 1, offset =>
    if scanForChk inb bytes offset then some offset
    else if offset + 1 + bytes.length < inb.length then
      scanForGo inb bytes fuel (offset + 1)
    else none

/-- Pointer-based `scanFor` (BlockUtils.cpp lines 57-81): offset of the match
    it finds, `none` for the source's `UINT64_MAX` return. -/
def scanFor (inb bytes : List Byte) : Option Nat :=
  scanForGo inb bytes (inb.length + 1) 0

/-! ## stripQuotes (BlockUtils.cpp lines 791-809)

    `size_t` arithmetic and the unchecked `c_str()` accesses are modelled
    explicitly: `c_str()[i]` is valid for `i ≤ size()` (index `size()` reads
    the null terminator) and out of bounds beyond; `--len` on `len = 0`
    wraps to `SIZE_MAX`. -/

def USIZE_MAX : Nat := 18446744073709551615

/-- Read of `input.c_str()[i]`: in bounds for `i < size` (a character of the
    string) and for `i = size` (the null terminator); out of bounds otherwise. -/
def cstrAt (s : List Char) (i : Nat) : Option Char :=
  if h : i < s.length then some s[i]
  else if i = s.length then some (Char.ofNat 0)
  else none

/-- The source's `--len` on a `size_t`: wraps to `SIZE_MAX` at zero. -/
def sizeTSub1 (n : Nat) : Nat := if n = 0 then USIZE_MAX else n - 1

/-- `std::string::substr(pos, count)`: defined for `pos ≤ size` (count is
    clamped to the available characters), throws otherwise. -/
def substr (s : List Char) (pos count : Nat) : Option (List Char) :=
  if pos ≤ s.length then some ((s.drop pos).take count) else none

/-- The two quote characters `"` (34) and `'` (39) tested by `stripQuotes`. -/
def quoteChar (c : Char) : Bool := c = Char.ofNat 34 || c = Char.ofNat 39

/-- `BlockDataManagerConfig::stripQuotes` (BlockUtils.cpp lines 791-809).
    `none` models the out-of-bounds `c_str()[len - 1]` read on the empty
    string (and an out-of-range `substr`, which cannot in fact occur). -/
def stripQuotes (input : List Char) : Option (List Char) :=
  let len0 := input.length
  match cstrAt input 0, cstrAt input (sizeTSub1 len0) with
  | some fc, some lc =>
    let sl : Nat × Nat := if quoteChar fc then (1, sizeTSub1 len0) else (0, len0)
    let len2 := if quoteChar lc then sizeTSub1 sl.2 else sl.2
    substr input sl.1 len2
  | _, _ => none

/-- The specification's description of `stripQuotes` on non-empty input: at
    most one leading quote and one trailing quote removed, otherwise the
    identity (the trailing test looks at the last character of the original
    input, as the source binds `last_char` before any modification). -/
def stripQuotesSpec (input : List Char) : List Char :=
  let s1 := if quoteChar (input.headD (Char.ofNat 0)) then input.drop 1 else input
  if quoteChar (input.getLastD (Char.ofNat 0)) then s1.dropLast else s1

/-! ## readRawBlocksFromFile (BlockUtils.cpp lines 521-602)

    The memory-mapped file is the byte list `file` (the map covers exactly
    `f.filesize = file.length` bytes).  The loop keeps a cursor `pos` and the
    `blockFileOffset` variable that is handed to the callback and updated to
    the end of each delivered block.  Reads past the end of the map (possible
    in the source, which only checks the cursor after advancing it) are
    modelled by the implicit clamping of `List.take`. -/

/-- `READ_UINT32_LE` of the (up to) four bytes of `l`. -/
def readUint32LE (l : List Byte) : Nat :=
  match l with
  | a :: b :: c :: d :: _ => a + 256 * (b + 256 * (c + 256 * d))
  | [a, b, c] => a + 256 * (b + 256 * c)
  | [a, b] => a + 256 * b
  | [a] => a
  | [] => 0

/-- One delivery of the `blockDataCallback` in `readRawBlocksFromFile`:
    the `blockFileOffset` and `blkSize` arguments and the raw block bytes. -/
structure RawBlockRecord where
  offset : Nat
  blkSize : Nat
  raw : List Byte
deriving Repr, DecidableEq

/-- The `while (pos < min(filesize, stopBefore))` loop of
    `readRawBlocksFromFile` (lines 550-594).  Per iteration: read 4 magic
    bytes, break if the cursor reached the end, resync with `scanFor` on a
    mismatch (break when it returns `UINT64_MAX`), read the 4-byte little
    endian size, break if the cursor reached the end, deliver the block and
    set `blockFileOffset` to its end.  The cursor grows by at least 8 per
    iteration, so fuel `file.length + 1` dominates the iteration count. -/
def rawBlockLoop (file magicBytes : List Byte) (stopBefore : Nat) :
    Nat → Nat → Nat → List RawBlockRecord × Nat
  | 0, _, bfo => ([], bfo)
  | fuel + 1, pos, bfo =>
    if pos < min file.length stopBefore then
      if pos + 4 ≥ file.length then ([], bfo)
      else if (file.drop pos).take 4 = magicBytes then
        let blkSize := readUint32LE ((file.drop (pos + 4)).take 4)
        if pos + 8 ≥ file.length then ([], bfo)
        else
          let raw := (file.drop (pos + 8)).take blkSize
          let out := rawBlockLoop file magicBytes stopBefore fuel
            (pos + 8 + blkSize) (pos + 8 + blkSize)
          (⟨bfo, blkSize, raw⟩ :: out.1, out.2)
      else
        match scanFor (file.drop (pos + 4)) magicBytes with
        | none => ([], bfo)
        | some off =>
          let p2 := pos + 8 + off
          let blkSize := readUint32LE ((file.drop p2).take 4)
          if p2 + 4 ≥ file.length then ([], bfo)
          else
            let raw := (file.drop (p2 + 4)).take blkSize
            let out := rawBlockLoop file magicBytes stopBefore fuel
              (p2 + 4 + blkSize) (p2 + 4 + blkSize)
            (⟨bfo, blkSize, raw⟩ :: out.1, out.2)
    else ([], bfo)

/-- Result of `readRawBlocksFromFile`: whether the wrong-network error was
    logged (lines 535-542 only log, they do not return), the delivered
    blocks and the returned final offset. -/
structure RawReadResult where
  wrongNetwork : Bool
  blocks : List RawBlockRecord
  finalOffset : Nat
deriving Repr, DecidableEq

/-- `BitcoinQtBlockFiles::readRawBlocksFromFile` (lines 521-602): short
    circuit when starting at or past `stopBefore`; otherwise compare the
    first four mapped bytes against the network magic - on a mismatch the
    source only emits `LOGERR` and falls through to the read loop. -/
def readRawBlocksFromFile (file magicBytes : List Byte)
    (blockFileOffset stopBefore : Nat) : RawReadResult :=
  if blockFileOffset ≥ stopBefore then ⟨false, [], blockFileOffset⟩
  else
    let wrong := decide (file.take 4 ≠ magicBytes)
    let out := rawBlockLoop file magicBytes stopBefore (file.length + 1)
      blockFileOffset blockFileOffset
    ⟨wrong, out.1, out.2⟩

/-! ## readHeadersFromFile (BlockUtils.cpp lines 604-671)

    The `ifstream` is modelled by the absolute cursor `pos` and an `eof`
    flag; `is.read(buf, n)` delivers `min(n, remaining)` bytes and raises
    `eof` when fewer than `n` were available.  The circular look-ahead buffer
    of the istream `scanFor` (lines 27-55) slides a window one byte at a
    time; it is modelled by the first in-bounds window position matching the
    pattern, which is what the buffer computes.  An adversarial file can make
    the source loop indefinitely (the `seekg(nextBlkSize - 90, cur)` can move
    the cursor backwards), so the loop takes explicit fuel; no theorem below
    depends on the loop's content, only on the wrong-network check that
    precedes it. -/

structure IStream where
  file : List Byte
  pos : Nat
  eof : Bool
deriving Repr, DecidableEq

/-- `is.read(buf, n)`: the bytes delivered and the advanced stream. -/
def isRead (s : IStream) (n : Nat) : List Byte × IStream :=
  let bytes := (s.file.drop s.pos).take n
  (bytes, ⟨s.file, s.pos + bytes.length, decide (bytes.length < n)⟩)

/-- First window position `q ≥ p` with `file[q .. q+len) = bytes`, the
    quantity the istream `scanFor`'s sliding circular buffer searches for. -/
def findWindow (file bytes : List Byte) : Nat → Nat → Option Nat
  | 0, _ => none
  | fuel + 1, p =>
    if p + bytes.length ≤ file.length then
      if (file.drop p).take bytes.length = bytes then some p
      else findWindow file bytes fuel (p + 1)
    else none

/-- The istream `scanFor` (BlockUtils.cpp lines 27-55): on success the
    stream is positioned just past the matched pattern; on failure the
    stream has been consumed to the end with `eof` raised. -/
def scanForStream (s : IStream) (bytes : List Byte) : Bool × IStream :=
  match findWindow s.file bytes (s.file.length + 1) s.pos with
  | some q => (true, ⟨s.file, q + bytes.length, false⟩)
  | none => (false, ⟨s.file, s.file.length, true⟩)

/-- One delivery of the header callback in `readHeadersFromFile`: the
    `blockFileOffset` and `nextBlkSize` arguments and the 90 raw bytes. -/
structure HeaderRecord where
  offset : Nat
  blkSize : Nat
  rawHead : List Byte
deriving Repr, DecidableEq

/-- The `while(!is.eof())` loop of `readHeadersFromFile` (lines 630-668). -/
def headerLoop (magicBytes : List Byte) :
    Nat → IStream → Nat → List HeaderRecord × Nat
  | 0, _, bfo => ([], bfo)
  | fuel + 1, s, bfo =>
    if s.eof then ([], bfo)
    else
      let r1 := isRead s 4
      if r1.2.eof then ([], bfo)
      else
        let step : Option IStream :=
          if r1.1 = magicBytes then some r1.2
          else
            let sc := scanForStream r1.2 magicBytes
            if sc.1 then some sc.2 else none
        match step with
        | none => ([], bfo)
        | some s2 =>
          let r2 := isRead s2 4
          let nextBlkSize := readUint32LE r2.1
          if r2.2.eof then ([], bfo)
          else
            let r3 := isRead r2.2 90
            let hr : HeaderRecord := ⟨bfo, nextBlkSize, r3.1⟩
            let bfo2 := bfo + nextBlkSize + 8
            if r3.2.pos + nextBlkSize < 90 then ([hr], bfo2)
            else
              let s5 : IStream := ⟨s.file, r3.2.pos + nextBlkSize - 90, false⟩
              let out := headerLoop magicBytes fuel s5 bfo2
              (hr :: out.1, out.2)

/-- `BitcoinQtBlockFiles::readHeadersFromFile` (lines 604-671): the first
    four bytes of the file are compared against the network magic and a
    `runtime_error` (modelled as `Except.error`) is thrown on a mismatch,
    before any header is read. -/
def readHeadersFromFile (file magicBytes : List Byte) (blockFileOffset : Nat) :
    Except String (List HeaderRecord × Nat) :=
  if file.take 4 ≠ magicBytes then Except.error "wrong network"
  else
    Except.ok (headerLoop magicBytes (file.length + 1)
      ⟨file, blockFileOffset, false⟩ blockFileOffset)

/-! ## detectAllBlkFiles (BlockUtils.cpp lines 121-157)

    The directory is modelled as `fs : Nat → Option Nat`, giving the size of
    `blkNNNNN.dat` when the file exists (`BtcUtils::GetFileSize` returning
    `FILE_DOES_NOT_EXIST` is `none`).  The object state is the `blkFiles_`
    vector and `totalBlockchainBytes_`. -/

structure BlkFile where
  fnum : Nat
  filesize : Nat
  filesizeCumul : Nat
deriving Repr, DecidableEq

structure BlkFilesState where
  blkFiles : List BlkFile
  totalBlockchainBytes : Nat
deriving Repr, DecidableEq

def UINT16_MAX : Nat := 65535

/-- The `while(numBlkFiles < UINT16_MAX)` loop of `detectAllBlkFiles`
    (lines 130-153).  The fuel is exactly `UINT16_MAX - n`, so fuel 0 is the
    loop exiting with `numBlkFiles == UINT16_MAX`, which the source turns
    into a thrown `runtime_error`. -/
def detectLoop (fs : Nat → Option Nat) :
    Nat → Nat → List BlkFile → Nat → Except String (List BlkFile × Nat)
  | 0, _, _, _ => Except.error "Error finding blockchain files (blkXXXX.dat)"
  | fuel + 1, n, files, total =>
    match fs n with
    | none => Except.ok (files, total)
    | some sz => detectLoop fs fuel (n + 1) (files ++ [⟨n, sz, total⟩]) (total + sz)

/-- `BitcoinQtBlockFiles::detectAllBlkFiles` (lines 121-157): when the state
    already holds files, the last one is popped (its size subtracted from the
    running total) and the scan resumes at its index; then consecutive files
    are stat'ed and appended until the first missing index. -/
def detectAllBlkFiles (fs : Nat → Option Nat) (st : BlkFilesState) :
    Except String BlkFilesState :=
  let n0 := if st.blkFiles.length > 0 then st.blkFiles.length - 1 else 0
  let total0 :=
    if st.blkFiles.length > 0 then
      st.totalBlockchainBytes - (st.blkFiles.getLastD ⟨0, 0, 0⟩).filesize
    else st.totalBlockchainBytes
  let files0 := if st.blkFiles.length > 0 then st.blkFiles.dropLast else st.blkFiles
  match detectLoop fs (UINT16_MAX - n0) n0 files0 total0 with
  | Except.ok ft => Except.ok ⟨ft.1, ft.2⟩
  | Except.error e => Except.error e

/-- Consistency of a `BlkFilesState` with the current directory contents:
    the recorded files are numbered consecutively from 0, each still exists
    on disk with at least its recorded size (files are only appended to or
    grown, never shrunk or removed), and the byte total is the sum of the
    recorded sizes. -/
def GoodState (fs : Nat → Option Nat) (st : BlkFilesState) : Prop :=
  (∀ i (hi : i < st.blkFiles.length),
    (st.blkFiles[i].fnum = i ∧
      ∃ sz, fs i = some sz ∧ st.blkFiles[i].filesize ≤ sz)) ∧
  st.totalBlockchainBytes = (st.blkFiles.map BlkFile.filesize).sum

/-! ## BlockchainScanner data model

    Blocks are modelled at the granularity the scanner works at: a block is
    a list of transactions, a transaction carries its hash, its inputs (each
    giving the 32-byte hash and 4-byte little-endian index of the output it
    spends, the two fields `txinParser` extracts from the raw txin bytes)
    and its outputs (value and script address, the fields `txoutParser`
    extracts from the raw txout bytes).  `std::map` keyed structures are
    modelled as association lists whose `insert` keeps the existing entry on
    a key collision, exactly as `std::map::insert` does. -/

/-- First-match association-list lookup, the model of `std::map::find`. -/
def lookupA {α β : Type} [DecidableEq α] : List (α × β) → α → Option β
  | [], _ => none
  | kv :: rest, k => if kv.1 = k then some kv.2 else lookupA rest k

/-- `std::map::insert`: a no-op when the key is already present. -/
def insertA {α β : Type} [DecidableEq α] (m : List (α × β)) (k : α) (v : β) :
    List (α × β) :=
  if (lookupA m k).isSome then m else m ++ [(k, v)]

/-- `std::map::erase` of a key. -/
def eraseA {α β : Type} [DecidableEq α] (m : List (α × β)) (k : α) :
    List (α × β) :=
  m.filter (fun kv => kv.1 ≠ k)

/-- One transaction output as `txoutParser` sees it. -/
structure TxOutM where
  value : Nat
  scrAddr : List Byte
deriving Repr, DecidableEq

/-- One transaction input as `txinParser` sees it: the outpoint it spends. -/
structure TxInM where
  outHash : List Byte
  outIndex : Nat
deriving Repr, DecidableEq

structure TxM where
  hash : List Byte
  inputs : List TxInM
  outputs : List TxOutM
deriving Repr, DecidableEq

structure BlockM where
  height : Nat
  dup : Nat
  txns : List TxM
deriving Repr, DecidableEq

/-- `DBUtils::getBlkDataKeyNoPrefix(height, dup, txIndex, index)`: the
    8-byte block-data key, kept as its four components. -/
structure TxRefKey where
  height : Nat
  dup : Nat
  txIndex : Nat
  index : Nat
deriving Repr, DecidableEq

inductive Spentness where
  | unspent : Spentness
  | spent : TxRefKey → Spentness
deriving Repr, DecidableEq

/-- The `StoredTxOut` fields the scanner fills in (`dataCopy_` is summarised
    by the output's value, the only part of it the scanner reads back). -/
structure StoredTxOut where
  parentHash : List Byte
  blockHeight : Nat
  duplicateID : Nat
  txIndex : Nat
  txOutIndex : Nat
  scrAddr : List Byte
  value : Nat
  spentness : Spentness
deriving Repr, DecidableEq

/-- `utxos_` / `utxoMap_`: tx hash to (key to `StoredTxOut`).  The inner key
    is whatever the source passes to `insert` - see `blockWatchedOutputs`. -/
abbrev UtxoMap := List (List Byte × List (Nat × StoredTxOut))

/-- The txout pass of `scanBlockData` on one block (txoutParser, lines
    301-364): every output whose script address passes `scrAddrFilter_` is
    turned into a `StoredTxOut` and recorded under its parent tx hash and -
    as in the source's line 351 `stxoHashMap.insert(make_pair(i, move(stxo)))`
    - under `i`, the index of the transaction in the block, not `y`, the
    output index (the `txOutIndex_` field does receive `y`).  The `ssh_`
    accumulation of the same loop is elided (no claim concerns it). -/
def blockWatchedOutputs (watched : List Byte → Bool) (b : BlockM) :
    List (List Byte × Nat × StoredTxOut) :=
  (b.txns.enum.map (fun it =>
    (it.2.outputs.enum.filterMap (fun yo =>
      if watched yo.2.scrAddr then
        some (it.2.hash, it.1,
          ⟨it.2.hash, b.height, b.dup, it.1, yo.1, yo.2.scrAddr, yo.2.value,
            Spentness.unspent⟩)
      else none)))).flatten

/-- Accumulation of a batch's `utxos_` map from the txout pass's inserts:
    `batch->utxos_[txHash]` creates the submap on demand and
    `stxoHashMap.insert` keeps an existing entry. -/
def buildUtxoMap (outs : List (List Byte × Nat × StoredTxOut)) : UtxoMap :=
  outs.foldl (fun m e =>
    match lookupA m e.1 with
    | none => m ++ [(e.1, [(e.2.1, e.2.2)])]
    | some sub =>
      (eraseA m e.1) ++ [(e.1, insertA sub e.2.1 e.2.2)]) []

/-- The two-level `utxoMap_` lookup of `txinParser` (lines 382-391). -/
def lookupUtxo (m : UtxoMap) (h : List Byte) (id : Nat) : Option StoredTxOut :=
  match lookupA m h with
  | none => none
  | some sub => lookupA sub id

/-- The txin pass of `scanBlockData` on one block (txinParser, lines
    367-422): every input whose `(outHash, outIndex)` outpoint hits the
    shared `utxoMap_` produces a copy of the found `StoredTxOut` marked
    spent by this input's block-data key, appended to `spentTxOuts_`.
    The `ssh_` accumulation is elided as above. -/
def blockSpentTxOuts (utxoMap : UtxoMap) (b : BlockM) : List StoredTxOut :=
  (b.txns.enum.map (fun it =>
    it.2.inputs.enum.filterMap (fun yi =>
      match lookupUtxo utxoMap yi.2.outHash yi.2.outIndex with
      | none => none
      | some stxo =>
        some { stxo with
          spentness := Spentness.spent ⟨b.height, b.dup, it.1, yi.1⟩ }))).flatten

/-- The pruning pass of `accumulateDataBeforeBatchWrite` (lines 453-467):
    each spent txout is removed from `utxoMap_` by its parent hash and its
    `txOutIndex_` field, the submap entry being erased and the hash entry
    dropped when its submap empties. -/
def pruneSpent (m : UtxoMap) (spent : List StoredTxOut) : UtxoMap :=
  spent.foldl (fun m s =>
    match lookupA m s.parentHash with
    | none => m
    | some sub =>
      match lookupA sub s.txOutIndex with
      | none => m
      | some _ =>
        let sub2 := eraseA sub s.txOutIndex
        if sub2.length = 0 then eraseA m s.parentHash
        else (eraseA m s.parentHash) ++ [(s.parentHash, sub2)]) m

/-- The driver's merge of one batch's `utxos_` into `utxoMap_` (line 171):
    `utxoMap_.insert(batch->utxos_.begin(), batch->utxos_.end())`, which
    skips tx hashes already present. -/
def insertRangeNoReplace (m add : UtxoMap) : UtxoMap :=
  add.foldl (fun acc kv =>
    if (lookupA acc kv.1).isSome then acc else acc ++ [kv]) m

/-- The merge loop over the whole batch group (lines 168-172). -/
def mergeUtxos (pre : UtxoMap) (batches : List UtxoMap) : UtxoMap :=
  batches.foldl insertRangeNoReplace pre

/-! ## readBlockData (BlockchainScanner lines 218-277)

    The reader thread walks heights `start_, start_ + T, start_ + 2T, ...`
    under the loop condition of the source, which is
    `while (currentBlock >= batch->end_)` (line 226).  The body calls
    `blockchain_->getHeaderByHeight(currentBlock)` (line 244), which throws
    `range_error` for heights beyond the chain top; that exception escapes
    the thread function (modelled as `none`).  When the loop exits normally
    the termination `BlockDataLink` is posted and the heights posted so far
    are returned. -/

def readBlockDataHeights (threadCount top : Nat) :
    Nat → Nat → Nat → Option (List Nat)
  | 0, _, _ => none
  | fuel + 1, cur, endH =>
    if cur ≥ endH then
      if cur > top then none
      else
        match readBlockDataHeights threadCount top fuel (cur + threadCount) endH with
        | none => none
        | some rest => some (cur :: rest)
    else some []

/-- Heights a reader thread posts for a batch `[start_, end_]` (fuel
    `top + 2` dominates the loop, whose cursor grows by `threadCount ≥ 1`
    and throws beyond `top`). -/
def readBlockDataPosted (threadCount top start endH : Nat) : Option (List Nat) :=
  readBlockDataHeights threadCount top (top + 2) start endH

/-! ## The scan loop (BlockchainScanner lines 72-215)

    `scan` aborts early when `scanFrom` is beyond the top block (lines
    74-81), before the write thread is started (line 99) and before any
    batch is formed.  Otherwise each iteration covers `[startHeight,
    endHeight]`, where `endHeight` is the target-height computation of lines
    111-133 (abstracted as `batchEndFn`, clamped to the chain top exactly as
    the `catch` clause does), and then executes line 198,
    `startHeight += endHeight + 1`. -/

/-- Height-range bookkeeping of the batch loop: the `(startHeight,
    endHeight)` pairs of the successive batch groups.  Fuel `top + 1`
    dominates the loop (`startHeight` grows by at least 1 per iteration and
    the loop runs only while `startHeight ≤ top`). -/
def scanBatchRanges (batchEndFn : Nat → Nat) (top : Nat) :
    Nat → Nat → List (Nat × Nat)
  | 0, _ => []
  | fuel + 1, startHeight =>
    if startHeight ≤ top then
      let endHeight := min (batchEndFn startHeight) top
      (startHeight, endHeight) ::
        scanBatchRanges batchEndFn top fuel (startHeight + endHeight + 1)
    else []

/-- The blockchain as the scanner sees it: the top height, and per height
    the block contents and the header hash (`getHeaderByHeight` succeeds
    exactly for heights up to `top`). -/
structure ChainM where
  top : Nat
  blockAt : Nat → BlockM
  hashAt : Nat → List Byte

/-- The mutable scanner state the claims talk about. -/
structure ScannerState where
  utxoMap : UtxoMap
  topScannedBlockHash : List Byte
deriving Repr, DecidableEq

/-- Externally visible actions of `scan`: thread creation and the pushes to
    the write thread (the only route to any database write). -/
inductive ScanEffect where
  | startWriterThread : ScanEffect
  | startReaderThread : Nat → Nat → ScanEffect
  | startScannerThread : Nat → Nat → ScanEffect
  | pushBatchGroup : Nat → Nat → ScanEffect
  | pushTermination : ScanEffect
deriving Repr, DecidableEq

/-- One batch group of `scan` (lines 137-198), run sequentially: the `T`
    reader threads post heights (`readBlockData`, with its inverted loop
    condition), the txout passes fill the per-batch `utxos_`, the driver
    merges them into `utxoMap_`, the txin passes collect `spentTxOuts_`
    against the merged map, and `accumulateDataBeforeBatchWrite` prunes the
    spent outputs and records the hash of the header at the group's end
    height.  `none` models a reader thread dying on the `range_error` of a
    height beyond the top (which terminates the process in the source). -/
def scanGroup (c : ChainM) (watched : List Byte → Bool) (T : Nat)
    (st : ScannerState) (s e : Nat) : Option ScannerState :=
  let postedOpt := (List.range T).map (fun i => readBlockDataPosted T c.top (s + i) e)
  if postedOpt.any (fun o => o.isNone) then none
  else
    let posted := postedOpt.map (fun o => o.getD [])
    let batchUtxos := posted.map (fun hs =>
      buildUtxoMap ((hs.map (fun h => blockWatchedOutputs watched (c.blockAt h))).flatten))
    let utxoMap1 := mergeUtxos st.utxoMap batchUtxos
    let spent := (posted.map (fun hs =>
      (hs.map (fun h => blockSpentTxOuts utxoMap1 (c.blockAt h))).flatten)).flatten
    some ⟨pruneSpent utxoMap1 spent, c.hashAt e⟩

/-- The batch loop of `scan` (lines 104-199) with its effects.  A dead
    reader thread (see `scanGroup`) stops the model. -/
def scanLoop (c : ChainM) (watched : List Byte → Bool) (T : Nat)
    (batchEndFn : Nat → Nat) :
    Nat → Nat → ScannerState → ScannerState × List ScanEffect
  | 0, _, st => (st, [])
  | fuel + 1, startHeight, st =>
    if startHeight ≤ c.top then
      let endHeight := min (batchEndFn startHeight) c.top
      let effs :=
        (List.range T).map (fun i => ScanEffect.startReaderThread (startHeight + i) endHeight)
        ++ (List.range T).map (fun i => ScanEffect.startScannerThread (startHeight + i) endHeight)
      match scanGroup c watched T st startHeight endHeight with
      | none => (st, effs)
      | some st2 =>
        let out := scanLoop c watched T batchEndFn fuel (startHeight + endHeight + 1) st2
        (out.1, effs ++ [ScanEffect.pushBatchGroup startHeight endHeight] ++ out.2)
    else (st, [])

/-- `BlockchainScanner::scan` (lines 72-215).  The guard of lines 74-81
    returns before the write thread of line 99 is created: on that path the
    state is returned unchanged and no effect is produced. -/
def scan (c : ChainM) (watched : List Byte → Bool) (T : Nat)
    (batchEndFn : Nat → Nat) (scanFrom : Nat) (st : ScannerState) :
    ScannerState × List ScanEffect :=
  if c.top < scanFrom then (st, [])
  else
    let out := scanLoop c watched T batchEndFn (c.top + 1) scanFrom st
    (out.1, ScanEffect.startWriterThread :: out.2 ++ [ScanEffect.pushTermination])

/-! ## The writer (BlockchainScanner lines 482-667)

    For one batch group the writer thread (a) spawns the tx-hint thread
    (line 498), (b) writes the serialized `StoredTxOut`s in an `STXO`
    transaction (lines 563-574), (c) writes the serialized SubSSH records
    and then the `StoredDBInfo` top-block-hash update in a `HISTORY`
    transaction (lines 576-595), and only then (d) joins the hint thread
    (lines 597-599).  `processAndCommitTxHints` reads the existing hints and
    writes the merged ones to `TXHINTS` (lines 606-667).  The two threads'
    events may interleave arbitrarily between spawn and join: the set of
    observable schedules is the set of shuffles of the two program orders. -/

inductive WriteEvent where
  | putStxo : Nat → WriteEvent
  | putSubSSH : Nat → WriteEvent
  | putSdbi : WriteEvent
  | getHints : Nat → WriteEvent
  | putHints : Nat → WriteEvent
deriving Repr, DecidableEq

/-- Program order of the writer thread for one batch group, keyed by the
    serialized record keys: all `STXO` puts, then all `HISTORY` SubSSH puts,
    then the `StoredDBInfo` update. -/
def writerThreadEvents (stxoKeys subsshKeys : List Nat) : List WriteEvent :=
  stxoKeys.map WriteEvent.putStxo ++ subsshKeys.map WriteEvent.putSubSSH
    ++ [WriteEvent.putSdbi]

/-- Program order of the tx-hint thread: the read-only pulls, then the
    `TXHINTS` puts. -/
def hintThreadEvents (hintKeys : List Nat) : List WriteEvent :=
  hintKeys.map WriteEvent.getHints ++ hintKeys.map WriteEvent.putHints

/-- `Shuffle xs ys zs`: `zs` is an interleaving of `xs` and `ys` preserving
    both orders - the schedules two concurrent threads can produce. -/
inductive Shuffle {α : Type} : List α → List α → List α → Prop where
  | nil : Shuffle [] [] []
  | left {x : α} {xs ys zs} : Shuffle xs ys zs → Shuffle (x :: xs) ys (x :: zs)
  | right {y : α} {xs ys zs} : Shuffle xs ys zs → Shuffle xs (y :: ys) (y :: zs)

def isWriterData : WriteEvent → Bool
  | WriteEvent.putStxo _ => true
  | WriteEvent.putSubSSH _ => true
  | _ => false

def isHintPut : WriteEvent → Bool
  | WriteEvent.putHints _ => true
  | _ => false

/-- No `STXO` or SubSSH record write occurs after the `StoredDBInfo` update
    in the schedule. -/
def noDataAfterSdbi : List WriteEvent → Bool
  | [] => true
  | e :: rest =>
    (if e = WriteEvent.putSdbi then rest.all (fun x => !isWriterData x) else true)
      && noDataAfterSdbi rest

/-- No `TXHINTS` record write occurs after the `StoredDBInfo` update in the
    schedule - what claim C4 asserts of every schedule. -/
def sdbiAfterHints : List WriteEvent → Bool
  | [] => true
  | e :: rest =>
    (if e = WriteEvent.putSdbi then rest.all (fun x => !isHintPut x) else true)
      && sdbiAfterHints rest

/-! ## The output/input barrier (BlockchainScanner lines 152-182, 424-438)

    The driver locks every batch's `mu_` before starting the scan threads
    (line 157), waits on every `doneScanningUtxos_` future (lines 162-166),
    merges every batch's `utxos_` into `utxoMap_` (lines 168-172) and only
    then releases the mutexes (line 175).  Each scanner thread runs its
    txout pass, fulfils its future (line 433), blocks acquiring `mu_` (line
    434) and only then runs its txin pass (line 437).  A schedule assigns a
    time to each of these events; the fields record the orderings forced by
    program order, by the promise/future (a `get` returns after the
    `set_value`) and by the mutex (an acquisition follows the release). -/

structure BarrierSchedule (T : Nat) where
  outDone : Nat → Nat
  flagGet : Nat → Nat
  mergeAt : Nat → Nat
  release : Nat
  lockAcq : Nat → Nat
  inputStart : Nat → Nat
  houtflag : ∀ i, i < T → outDone i < flagGet i
  hflagmerge : ∀ i, i < T → ∀ j, j < T → flagGet i < mergeAt j
  hmergerel : ∀ i, i < T → mergeAt i < release
  hrelacq : ∀ i, i < T → release < lockAcq i
  hacqinput : ∀ i, i < T → lockAcq i < inputStart i

/-! ## Concrete instances used by the counterexamples and witnesses -/

/-- A filter watching exactly the script address `[170]`. -/
def wEx : List Byte → Bool := fun a => decide (a = [170])

/-- Block at height 5: tx 0 (hash `[1]`) pays an unwatched address, tx 1
    (hash `[2]`) pays the watched address in its output 0. -/
def blkA : BlockM := ⟨5, 0, [⟨[1], [], [⟨50, [9]⟩]⟩, ⟨[2], [], [⟨60, [170]⟩]⟩]⟩

/-- The `StoredTxOut` the txout pass builds for the watched output of
    `blkA`: output 0 of the tx at index 1. -/
def stxoA : StoredTxOut := ⟨[2], 5, 0, 1, 0, [170], 60, Spentness.unspent⟩

/-- Block at height 6 whose single input claims output index 1 of tx `[2]`
    (an output that was never watched). -/
def blkB : BlockM := ⟨6, 0, [⟨[3], [⟨[2], 1⟩], []⟩]⟩

/-- Block at height 6 whose single input spends output index 0 of tx `[2]`
    (the watched output). -/
def blkB0 : BlockM := ⟨6, 0, [⟨[3], [⟨[2], 0⟩], []⟩]⟩

/-- A schedule the spawn/join structure of `writeBlockData` admits: the
    whole hint thread runs after the writer thread's `StoredDBInfo`
    update. -/
def lateHintTrace : List WriteEvent :=
  [WriteEvent.putStxo 0, WriteEvent.putSubSSH 0, WriteEvent.putSdbi,
   WriteEvent.getHints 0, WriteEvent.putHints 0]

/-- A concrete barrier schedule for one worker thread. -/
def barrierEx : BarrierSchedule 1 where
  outDone := fun _ => 0
  flagGet := fun _ => 1
  mergeAt := fun _ => 2
  release := 3
  lockAcq := fun _ => 4
  inputStart := fun _ => 5
  houtflag := fun _ _ => by show (0 : Nat) < 1; decide
  hflagmerge := fun _ _ _ _ => by show (1 : Nat) < 2; decide
  hmergerel := fun _ _ => by show (2 : Nat) < 3; decide
  hrelacq := fun _ _ => by show (3 : Nat) < 4; decide
  hacqinput := fun _ _ => by show (4 : Nat) < 5; decide

/-- A batch `utxos_` map holding one watched output of tx hash `[7]`. -/
def batchC5 : UtxoMap :=
  [([7], [(0, ⟨[7], 2, 0, 0, 0, [170], 9, Spentness.unspent⟩)])]

/-- The four-byte network magic used in the file examples. -/
def magicEx : List Byte := [1, 2, 3, 4]

/-- A block file whose first four bytes are not the network magic but which
    contains a well-formed magic-framed block (size 2, body `[7, 7]`). -/
def fileC7 : List Byte := [0, 0, 0, 0, 1, 2, 3, 4, 2, 0, 0, 0, 7, 7]

/-- Directory with a single 10-byte `blk00000.dat`. -/
def fs1Ex : Nat → Option Nat := fun n => if n = 0 then some 10 else none

/-- The same directory later: `blk00000.dat` grew to 12 bytes and
    `blk00001.dat` (5 bytes) was appended. -/
def fs2Ex : Nat → Option Nat :=
  fun n => if n = 0 then some 12 else if n = 1 then some 5 else none

def st0Ex : BlkFilesState := ⟨[], 0⟩
def st1Ex : BlkFilesState := ⟨[⟨0, 10, 0⟩], 10⟩
def st2Ex : BlkFilesState := ⟨[⟨0, 12, 0⟩, ⟨1, 5, 12⟩], 17⟩

/-- A three-block chain with no transactions. -/
def cEx : ChainM := ⟨3, fun _ => ⟨0, 0, []⟩, fun _ => []⟩

def stScanEx : ScannerState := ⟨[], [42]⟩

/-! ## Theorems -/

/-- Claim C1 (code bug).  The txout pass stores the watched `StoredTxOut`
    of `blkA` - output 0 of the transaction at index 1 - in `batch.utxos`
    under key 1, the transaction index, not under its tx-output index 0
    (line 351 inserts `make_pair(i, move(stxo))`), while the txin pass looks
    entries up by the spent output index.  Consequently the input of `blkB`,
    which references output index 1 of tx `[2]`, marks the stored output
    with `txOutIndex_ = 0` as `Spent`, and the input of `blkB0`, which
    spends the actually watched output 0, finds nothing: the tx at the
    recorded `txin_key` does not reference the spent output's
    `(tx_hash, output_index)`. -/
theorem txout_pass_keys_by_tx_index :
    blockWatchedOutputs wEx blkA = [([2], 1, stxoA)] ∧
    stxoA.txOutIndex = 0 ∧
    blockSpentTxOuts (buildUtxoMap (blockWatchedOutputs wEx blkA)) blkB
      = [{ stxoA with spentness := Spentness.spent ⟨6, 0, 0, 0⟩ }] ∧
    blockSpentTxOuts (buildUtxoMap (blockWatchedOutputs wEx blkA)) blkB0 = [] :=
  ⟨rfl, rfl, rfl, rfl⟩

/-- Claim C2 (code bug).  With the source's loop condition
    `while (currentBlock >= batch->end_)`, a batch with `start_ = 0 <
    end_ = 1` (thread count 1, top 10) posts no block at all before the
    terminating link - `some []` - although the claim requires heights 0 and
    1 to be posted; and a batch with `start_ = end_ = 2` (top 3) runs past
    `end_` until `getHeaderByHeight` throws beyond the top (`none`). -/
theorem readBlockData_inverted_condition :
    readBlockDataPosted 1 10 0 1 = some [] ∧
    readBlockDataPosted 1 3 2 2 = none :=
  ⟨rfl, rfl⟩

/-- Claim C3 (code bug).  With single-block batches (`batchEndFn = id`) and
    top 10 the batch loop started at height 1 covers `[1,1]`, `[3,3]`,
    `[7,7]`: line 198 executes `startHeight += endHeight + 1`, so after the
    group ending at height 1 the next group starts at `1 + 1 + 1 = 3`, not
    at `endHeight + 1 = 2`, and height 2 is covered by no batch group. -/
theorem scan_increment_skips_heights :
    scanBatchRanges (fun s => s) 10 20 1 = [(1, 1), (3, 3), (7, 7)] ∧
    ∀ r ∈ scanBatchRanges (fun s => s) 10 20 1, ¬(r.1 ≤ 2 ∧ 2 ≤ r.2) :=
  ⟨rfl, by decide⟩

/-- Claim C9 (confirmed).  When `scanFrom` exceeds the top block's height,
    `scan` returns at the guard of lines 74-81, before the write thread of
    line 99 or any reader/scanner thread exists: the returned state is the
    input state and the effect list is empty (no thread started, no batch
    pushed, hence no database write). -/
theorem scan_beyond_top_is_noop (c : ChainM) (watched : List Byte → Bool)
    (T : Nat) (batchEndFn : Nat → Nat) (scanFrom : Nat) (st : ScannerState)
    (h : c.top < scanFrom) :
    scan c watched T batchEndFn scanFrom st = (st, []) := by
  unfold scan
  simp [h]

/-- Witness for `scan_beyond_top_is_noop` at the concrete chain `cEx`
    (top 3) and `scanFrom = 5`. -/
theorem scan_beyond_top_is_noop_w :
    scan cEx wEx 1 (fun s => s) 5 stScanEx = (stScanEx, []) :=
  scan_beyond_top_is_noop cEx wEx 1 (fun s => s) 5 stScanEx (by decide)

/-- Claim C10 (confirmed).  `stripQuotes` on the empty string reads
    `c_str()[size_t(-1)]`, out of bounds (modelled by `none`); on every
    non-empty input it is defined and returns the input with at most one
    leading and one trailing quote character removed, otherwise the
    identity (`stripQuotesSpec`). -/
theorem stripQuotes_oob_empty_strips_nonempty :
    stripQuotes [] = none ∧
    ∀ input : List Char, input ≠ [] →
      stripQuotes input = some (stripQuotesSpec input) := by
  refine ⟨rfl, ?_⟩
  intro input hne
  obtain ⟨c, t, rfl⟩ := List.exists_cons_of_ne_nil hne
  have hlast : (c :: t).getLastD (Char.ofNat 0) = (c :: t)[t.length] := by
    rw [List.getLastD_eq_getLast?, List.getLast?_eq_getLast _ hne,
      List.getLast_eq_getElem]
    simp
  have hc0 : cstrAt (c :: t) 0 = some c := by
    simp [cstrAt]
  have hcl : cstrAt (c :: t) (sizeTSub1 (t.length + 1)) = some ((c :: t)[t.length]) := by
    simp [cstrAt, sizeTSub1]
  have hspec : stripQuotesSpec (c :: t) =
      if quoteChar ((c :: t)[t.length]) = true
      then (if quoteChar c = true then t else c :: t).dropLast
      else (if quoteChar c = true then t else c :: t) := by
    rw [stripQuotesSpec, hlast]
    simp
  rw [stripQuotes, hspec]
  simp only [List.length_cons, hc0, hcl]
  cases hqf : quoteChar c <;> cases hql : quoteChar ((c :: t)[t.length]) <;>
    simp only [hqf, hql, Bool.false_eq_true, if_true, if_false, reduceIte]
  · -- no leading quote, no trailing quote: identity
    simp [substr]
  · -- trailing quote only: drop the last character
    simp [substr, sizeTSub1, List.dropLast_eq_take]
  · -- leading quote only: drop the first character
    simp [substr, sizeTSub1]
  · -- both quotes
    cases t with
    | nil => simp [substr, sizeTSub1]
    | cons b u => simp [substr, sizeTSub1, List.dropLast_eq_take]

/-- Witness for `stripQuotes_oob_empty_strips_nonempty`: the quoted input
    `"a'` loses its leading and trailing quote. -/
theorem stripQuotes_oob_empty_strips_nonempty_w :
    stripQuotes [Char.ofNat 34, Char.ofNat 97, Char.ofNat 39]
      = some [Char.ofNat 97] :=
  (stripQuotes_oob_empty_strips_nonempty.2
    [Char.ofNat 34, Char.ofNat 97, Char.ofNat 39] (by decide)).trans (by decide)

/-- Every element of a shuffle comes from one of the two inputs. -/
theorem shuffle_mem {α : Type} {xs ys zs : List α} (h : Shuffle xs ys zs) :
    ∀ e ∈ zs, e ∈ xs ∨ e ∈ ys := by
  induction h with
  | nil => intro e he; cases he
  | left _ ih =>
    intro e he
    rcases List.mem_cons.mp he with rfl | he2
    · exact Or.inl (List.mem_cons_self _ _)
    · rcases ih e he2 with h1 | h2
      · exact Or.inl (List.mem_cons_of_mem _ h1)
      · exact Or.inr h2
  | right _ ih =>
    intro e he
    rcases List.mem_cons.mp he with rfl | he2
    · exact Or.inr (List.mem_cons_self _ _)
    · rcases ih e he2 with h1 | h2
      · exact Or.inl h1
      · exact Or.inr (List.mem_cons_of_mem _ h2)

/-- Concatenating the two program orders is one admissible schedule. -/
theorem shuffle_append {α : Type} (xs ys : List α) : Shuffle xs ys (xs ++ ys) := by
  induction xs with
  | nil =>
    simp only [List.nil_append]
    induction ys with
    | nil => exact Shuffle.nil
    | cons y ys ih => exact Shuffle.right ih
  | cons x xs ih => exact Shuffle.left ih

/-- In any shuffle of a first list that has no writer-data event after its
    `putSdbi` with a second list containing neither `putSdbi` nor
    writer-data events, no writer-data event follows `putSdbi`. -/
theorem shuffle_noDataAfterSdbi {xs ys zs : List WriteEvent}
    (h : Shuffle xs ys zs)
    (hx : noDataAfterSdbi xs = true)
    (hy : ∀ e ∈ ys, e ≠ WriteEvent.putSdbi ∧ isWriterData e = false) :
    noDataAfterSdbi zs = true := by
  induction h with
  | nil => rfl
  | @left x xs ys zs hsh ih =>
    rw [noDataAfterSdbi] at hx ⊢
    rcases (Bool.and_eq_true _ _).mp hx with ⟨hx1, hx2⟩
    refine (Bool.and_eq_true _ _).mpr ⟨?_, ih hx2 hy⟩
    by_cases hxe : x = WriteEvent.putSdbi
    · rw [if_pos hxe] at hx1 ⊢
      rw [List.all_eq_true] at hx1 ⊢
      intro e he
      rcases shuffle_mem hsh e he with h1 | h2
      · exact hx1 e h1
      · simp [(hy e h2).2]
    · rw [if_neg hxe]
  | @right y xs ys zs hsh ih =>
    rw [noDataAfterSdbi]
    have hy1 := hy y (List.mem_cons_self _ _)
    refine (Bool.and_eq_true _ _).mpr ⟨?_, ih hx (fun e he => hy e (List.mem_cons_of_mem _ he))⟩
    rw [if_neg hy1.1]

/-- A list followed by a single `putSdbi` has no writer-data event after
    `putSdbi`, provided `putSdbi` does not occur earlier. -/
theorem noDataAfterSdbi_append_sdbi (l : List WriteEvent)
    (hl : WriteEvent.putSdbi ∉ l) :
    noDataAfterSdbi (l ++ [WriteEvent.putSdbi]) = true := by
  induction l with
  | nil => rfl
  | cons e l ih =>
    rw [List.cons_append, noDataAfterSdbi]
    refine (Bool.and_eq_true _ _).mpr ⟨?_, ih (fun hm => hl (List.mem_cons_of_mem _ hm))⟩
    rw [if_neg (fun he : e = WriteEvent.putSdbi =>
      hl (he ▸ List.mem_cons_self e l))]

/-- The writer thread's program order has no data write after its
    `StoredDBInfo` update. -/
theorem noDataAfterSdbi_writer (stxoKeys subsshKeys : List Nat) :
    noDataAfterSdbi (writerThreadEvents stxoKeys subsshKeys) = true := by
  have : writerThreadEvents stxoKeys subsshKeys
      = (stxoKeys.map WriteEvent.putStxo ++ subsshKeys.map WriteEvent.putSubSSH)
        ++ [WriteEvent.putSdbi] := by
    rw [writerThreadEvents, List.append_assoc]
  rw [this]
  apply noDataAfterSdbi_append_sdbi
  intro hm
  rcases List.mem_append.mp hm with h1 | h2
  · rcases List.mem_map.mp h1 with ⟨a, _, ha⟩; cases ha
  · rcases List.mem_map.mp h2 with ⟨a, _, ha⟩; cases ha

/-- The hint thread's events are neither `putSdbi` nor data writes. -/
theorem hintThreadEvents_not_data (hintKeys : List Nat) :
    ∀ e ∈ hintThreadEvents hintKeys,
      e ≠ WriteEvent.putSdbi ∧ isWriterData e = false := by
  intro e he
  rcases List.mem_append.mp he with h1 | h2
  · rcases List.mem_map.mp h1 with ⟨a, _, rfl⟩
    exact ⟨fun h => WriteEvent.noConfusion h, rfl⟩
  · rcases List.mem_map.mp h2 with ⟨a, _, rfl⟩
    exact ⟨fun h => WriteEvent.noConfusion h, rfl⟩

/-- Claim C4 counterexample.  The schedule `lateHintTrace` - the whole hint
    thread running after the writer thread - is admitted by the spawn/join
    structure of `writeBlockData` (the hint thread is spawned at line 498
    and joined at lines 597-599, after the `StoredDBInfo` update of lines
    590-594), and in it a `TXHINTS` write follows the `StoredDBInfo`
    update: the claim that the top-block-hash record is updated only after
    all the group's tx-hint records were written fails in this schedule. -/
theorem sdbi_can_precede_hint_writes :
    Shuffle (writerThreadEvents [0] [0]) (hintThreadEvents [0]) lateHintTrace ∧
    sdbiAfterHints lateHintTrace = false := by
  constructor
  · show Shuffle
      [WriteEvent.putStxo 0, WriteEvent.putSubSSH 0, WriteEvent.putSdbi]
      [WriteEvent.getHints 0, WriteEvent.putHints 0] lateHintTrace
    exact Shuffle.left (Shuffle.left (Shuffle.left
      (Shuffle.right (Shuffle.right Shuffle.nil))))
  · rfl

/-- Claim C4 (corrected).  In every schedule the spawn/join structure of
    `writeBlockData` admits, the `StoredDBInfo` top-block-hash update comes
    after all the group's SubSSH (`HISTORY`) and `StoredTxOut` (`STXO`)
    writes - they precede it in the writer thread's own program order - but
    the tx-hint (`TXHINTS`) writes run on the concurrent hint thread, which
    is joined only after the update, so they may follow it. -/
theorem writer_data_precedes_sdbi (stxoKeys subsshKeys hintKeys : List Nat)
    (trace : List WriteEvent)
    (h : Shuffle (writerThreadEvents stxoKeys subsshKeys)
      (hintThreadEvents hintKeys) trace) :
    noDataAfterSdbi trace = true :=
  shuffle_noDataAfterSdbi h (noDataAfterSdbi_writer stxoKeys subsshKeys)
    (hintThreadEvents_not_data hintKeys)

/-- Witness for `writer_data_precedes_sdbi` at the writer-first schedule. -/
theorem writer_data_precedes_sdbi_w :
    noDataAfterSdbi (writerThreadEvents [0] [0] ++ hintThreadEvents [0]) = true :=
  writer_data_precedes_sdbi [0] [0] [0] _ (shuffle_append _ _)

/-- First-match lookup distributes over append. -/
theorem lookupA_append {α β : Type} [DecidableEq α] (m l : List (α × β)) (k : α) :
    lookupA (m ++ l) k =
      match lookupA m k with
      | some v => some v
      | none => lookupA l k := by
  induction m with
  | nil => rfl
  | cons kv m ih =>
    by_cases hk : kv.1 = k
    · simp [lookupA, hk]
    · simp [lookupA, hk, ih]

/-- An entry already present survives `utxoMap_.insert` of a batch map. -/
theorem insertRange_keeps {m add : UtxoMap} {h : List Byte}
    {s : List (Nat × StoredTxOut)} (hm : lookupA m h = some s) :
    lookupA (insertRangeNoReplace m add) h = some s := by
  induction add generalizing m with
  | nil => exact hm
  | cons kv rest ih =>
    rw [insertRangeNoReplace] at *
    by_cases hp : (lookupA m kv.1).isSome
    · rw [List.foldl_cons, if_pos hp]
      exact ih hm
    · rw [List.foldl_cons, if_neg hp]
      refine ih ?_
      rw [lookupA_append, hm]

/-- On a fresh tx hash, `utxoMap_.insert` of a batch map delivers exactly
    the batch's entry for that hash. -/
theorem insertRange_fresh {m add : UtxoMap} {h : List Byte}
    (hm : lookupA m h = none) :
    lookupA (insertRangeNoReplace m add) h = lookupA add h := by
  induction add generalizing m with
  | nil => exact hm
  | cons kv rest ih =>
    rw [insertRangeNoReplace] at *
    rw [List.foldl_cons]
    by_cases hk : kv.1 = h
    · have hp : ¬(lookupA m kv.1).isSome := by
        rw [hk, hm]; simp
      rw [if_neg hp]
      have hacc : lookupA (m ++ [kv]) h = some kv.2 := by
        rw [lookupA_append, hm, ← hk]
        simp [lookupA]
      have := @insertRange_keeps (m ++ [kv]) rest h kv.2 hacc
      rw [insertRangeNoReplace] at this
      rw [this, lookupA, if_pos hk]
    · have hstep : ∀ m' : UtxoMap, lookupA m' h = none →
          lookupA (if (lookupA m' kv.1).isSome then m' else m' ++ [kv]) h = none := by
        intro m' hm'
        by_cases hp : (lookupA m' kv.1).isSome
        · rw [if_pos hp]; exact hm'
        · rw [if_neg hp, lookupA_append, hm']
          simp [lookupA, hk]
      rw [lookupA, if_neg hk]
      exact ih (hstep m hm)

/-- A fresh key stays absent through the merge of batch maps that all lack
    it. -/
theorem foldl_insertRange_none {h : List Byte} :
    ∀ (bs : List UtxoMap) (pre : UtxoMap), lookupA pre h = none →
      (∀ b2 ∈ bs, lookupA b2 h = none) →
      lookupA (List.foldl insertRangeNoReplace pre bs) h = none := by
  intro bs
  induction bs with
  | nil => intro pre hpre _; exact hpre
  | cons b2 rest ih =>
    intro pre hpre hall
    rw [List.foldl_cons]
    refine ih _ ?_ (fun x hx => hall x (List.mem_cons_of_mem _ hx))
    rw [insertRange_fresh hpre]
    exact hall b2 (List.mem_cons_self _ _)

/-- A present entry survives the merge of any list of batch maps. -/
theorem foldl_insertRange_keeps {h : List Byte} {s : List (Nat × StoredTxOut)} :
    ∀ (bs : List UtxoMap) (pre : UtxoMap), lookupA pre h = some s →
      lookupA (List.foldl insertRangeNoReplace pre bs) h = some s := by
  intro bs
  induction bs with
  | nil => intro pre hpre; exact hpre
  | cons b2 rest ih =>
    intro pre hpre
    rw [List.foldl_cons]
    exact ih _ (insertRange_keeps hpre)

/-- Claim C5 (confirmed).  First conjunct: in every schedule admitted by
    the synchronisation of `scan` (lines 152-182) and `scanBlockData`
    (lines 424-438), the driver's merge of every batch's `utxos_` into
    `utxoMap_` happens before every scanner thread starts its txin pass -
    the merges precede the mutex release, which precedes each thread's
    acquisition, which precedes its txin loop.  Second conjunct: the merged
    map then holds each batch's entry for every tx hash that is fresh - not
    already in `utxoMap_` and not produced by an earlier batch of the group
    (tx hashes are unique in practice; `std::map::insert` keeps the first
    entry for a key). -/
theorem barrier_merges_before_txin {T : Nat} (sch : BarrierSchedule T)
    (i j : Nat) (hi : i < T) (hj : j < T)
    (pre : UtxoMap) (bs1 bs2 : List UtxoMap) (b : UtxoMap)
    (h : List Byte) (sub : List (Nat × StoredTxOut))
    (hpre : lookupA pre h = none)
    (hb : lookupA b h = some sub)
    (hbefore : ∀ b2 ∈ bs1, lookupA b2 h = none) :
    sch.mergeAt j < sch.inputStart i ∧
    lookupA (mergeUtxos pre (bs1 ++ b :: bs2)) h = some sub := by
  constructor
  · exact Nat.lt_trans (Nat.lt_trans (sch.hmergerel j hj) (sch.hrelacq i hi))
      (sch.hacqinput i hi)
  · rw [mergeUtxos, List.foldl_append]
    have hafter1 : lookupA (List.foldl insertRangeNoReplace pre bs1) h = none :=
      foldl_insertRange_none bs1 pre hpre hbefore
    rw [List.foldl_cons]
    refine foldl_insertRange_keeps bs2 _ ?_
    rw [insertRange_fresh hafter1]
    exact hb

/-- Witness for `barrier_merges_before_txin`: one worker thread with the
    concrete schedule `barrierEx` and the single batch map `batchC5`. -/
theorem barrier_merges_before_txin_w :
    barrierEx.mergeAt 0 < barrierEx.inputStart 0 ∧
    lookupA (mergeUtxos [] ([] ++ batchC5 :: [])) [7]
      = some [(0, ⟨[7], 2, 0, 0, 0, [170], 9, Spentness.unspent⟩)] :=
  barrier_merges_before_txin barrierEx 0 0 (by decide) (by decide)
    [] [] [] batchC5 [7] _ rfl rfl
    (fun b2 hb2 => absurd hb2 (List.not_mem_nil _))

/-- Characterisation of the do/while loop of the pointer `scanFor` started
    at `offset`: it returns `some o` exactly when the pattern matches at
    `o`, `o` is one of the checked offsets (`offset` itself is always
    checked; a later offset only under the loop guard
    `o + len < inLen`), and no earlier checked offset matches. -/
theorem scanForGo_some_iff (inb bytes : List Byte) (hb : bytes ≠ []) :
    ∀ fuel offset, inb.length + 1 ≤ fuel + offset →
      ∀ o, (scanForGo inb bytes fuel offset = some o ↔
        (scanForChk inb bytes o = true ∧
         (o = offset ∨ (offset < o ∧ o + bytes.length < inb.length)) ∧
         ∀ p, offset ≤ p → p < o → scanForChk inb bytes p = false)) := by
  intro fuel
  induction fuel with
  | zero =>
    intro offset hf o
    constructor
    · intro h; exact absurd h (by rw [scanForGo]; exact Option.noConfusion)
    · rintro ⟨hchk, hor, -⟩
      exfalso
      rcases hor with rfl | ⟨hlt, hbound⟩
      · rw [scanForChk] at hchk
        have hdrop : inb.drop o = [] :=
          List.drop_eq_nil_of_le (by omega)
        rw [hdrop, List.take_nil] at hchk
        exact hb (of_decide_eq_true hchk).symm
      · omega
  | succ fuel ih =>
    intro offset hf o
    rw [scanForGo]
    by_cases hchk : scanForChk inb bytes offset
    · rw [if_pos hchk]
      constructor
      · intro h
        obtain rfl : offset = o := Option.some.inj h
        exact ⟨hchk, Or.inl rfl, fun p h1 h2 => absurd (Nat.lt_of_le_of_lt h1 h2)
          (Nat.lt_irrefl _)⟩
      · rintro ⟨hc, hor, hall⟩
        rcases hor with rfl | ⟨hlt, -⟩
        · rfl
        · exact absurd hchk (by rw [hall offset (Nat.le_refl _) hlt]; exact
            fun h => Bool.noConfusion h)
    · rw [if_neg hchk]
      by_cases hcond : offset + 1 + bytes.length < inb.length
      · rw [if_pos hcond]
        rw [ih (offset + 1) (by omega) o]
        constructor
        · rintro ⟨hc, hor, hall⟩
          refine ⟨hc, ?_, ?_⟩
          · rcases hor with rfl | ⟨hlt, hbound⟩
            · exact Or.inr ⟨Nat.lt_succ_self _, by omega⟩
            · exact Or.inr ⟨by omega, hbound⟩
          · intro p h1 h2
            rcases Nat.eq_or_lt_of_le h1 with rfl | h1'
            · exact Bool.eq_false_iff.mpr hchk
            · exact hall p h1' h2
        · rintro ⟨hc, hor, hall⟩
          refine ⟨hc, ?_, fun p h1 h2 => hall p (by omega) h2⟩
          rcases hor with rfl | ⟨hlt, hbound⟩
          · exact absurd hc (Bool.eq_false_iff.mp (Bool.eq_false_iff.mpr hchk))
          · rcases Nat.eq_or_lt_of_le (Nat.succ_le_of_lt hlt) with heq | h1'
            · exact Or.inl heq.symm
            · exact Or.inr ⟨h1', hbound⟩
      · rw [if_neg hcond]
        constructor
        · intro h; exact Option.noConfusion h
        · rintro ⟨hc, hor, -⟩
          exfalso
          rcases hor with rfl | ⟨hlt, hbound⟩
          · exact hchk hc
          · omega

/-- Claim C6 counterexample.  The 4-byte pattern `[1,2,3,4]` occurs in the
    buffer `[9,1,2,3,4]` at offset 1, its last byte being the buffer's last
    byte, yet `scanFor` returns `UINT64_MAX` (`none`): the do/while guard
    `offset + len < inLen` never lets the loop check the final window. -/
theorem scanFor_misses_final_occurrence :
    scanFor [9, 1, 2, 3, 4] [1, 2, 3, 4] = none ∧
    scanForChk [9, 1, 2, 3, 4] [1, 2, 3, 4] 1 = true :=
  ⟨rfl, rfl⟩

/-- Claim C6 (corrected).  For a non-empty pattern, `scanFor` returns
    `some o` exactly when the pattern matches at `o`, `o` is a checked
    offset - offset 0, or any `o` with `o + len < inLen`, which excludes an
    occurrence whose last byte is the buffer's last byte unless it sits at
    offset 0 - and no smaller offset matches; it returns `UINT64_MAX`
    (`none`) exactly when no checked offset matches. -/
theorem scanFor_first_checked_occurrence (inb bytes : List Byte)
    (hb : bytes ≠ []) :
    (∀ o, scanFor inb bytes = some o ↔
      (scanForChk inb bytes o = true ∧
       (o = 0 ∨ o + bytes.length < inb.length) ∧
       ∀ p, p < o → scanForChk inb bytes p = false)) ∧
    (scanFor inb bytes = none ↔
      ∀ o, (o = 0 ∨ o + bytes.length < inb.length) →
        scanForChk inb bytes o = false) := by
  have hsome := scanForGo_some_iff inb bytes hb (inb.length + 1) 0 (by omega)
  have hmain : ∀ o, scanFor inb bytes = some o ↔
      (scanForChk inb bytes o = true ∧
       (o = 0 ∨ o + bytes.length < inb.length) ∧
       ∀ p, p < o → scanForChk inb bytes p = false) := by
    intro o
    rw [scanFor, hsome o]
    constructor
    · rintro ⟨hc, hor, hall⟩
      refine ⟨hc, ?_, fun p hp => hall p (Nat.zero_le _) hp⟩
      rcases hor with rfl | ⟨-, hbound⟩
      · exact Or.inl rfl
      · exact Or.inr hbound
    · rintro ⟨hc, hor, hall⟩
      refine ⟨hc, ?_, fun p _ hp => hall p hp⟩
      rcases hor with rfl | hbound
      · exact Or.inl rfl
      · rcases Nat.eq_zero_or_pos o with rfl | hpos
        · exact Or.inl rfl
        · exact Or.inr ⟨hpos, hbound⟩
  refine ⟨hmain, ?_, ?_⟩
  · intro hnone o hco
    by_contra hchk
    have hchk' : scanForChk inb bytes o = true :=
      eq_true_of_ne_false hchk
    have hex : ∃ p, scanForChk inb bytes p = true := ⟨o, hchk'⟩
    classical
    set p0 := Nat.find hex with hp0
    have hp0chk : scanForChk inb bytes p0 = true := Nat.find_spec hex
    have hp0le : p0 ≤ o := Nat.find_min' hex hchk'
    have hp0min : ∀ q, q < p0 → scanForChk inb bytes q = false := by
      intro q hq
      have := Nat.find_min hex hq
      exact Bool.eq_false_iff.mpr this
    have hp0co : p0 = 0 ∨ p0 + bytes.length < inb.length := by
      rcases hco with rfl | hbound
      · left; omega
      · rcases Nat.eq_zero_or_pos p0 with h0 | -
        · exact Or.inl h0
        · right; omega
    have := (hmain p0).mpr ⟨hp0chk, hp0co, hp0min⟩
    rw [hnone] at this
    exact Option.noConfusion this
  · intro hall
    cases hres : scanFor inb bytes with
    | none => rfl
    | some o =>
      exfalso
      rcases (hmain o).mp hres with ⟨hc, hco, -⟩
      rw [hall o hco] at hc
      exact Bool.noConfusion hc

/-- Witness for `scanFor_first_checked_occurrence`: the pattern occurs at
    offset 1 of `[5,1,2,3,4,9]` with a byte to spare, and is found. -/
theorem scanFor_first_checked_occurrence_w :
    scanFor [5, 1, 2, 3, 4, 9] [1, 2, 3, 4] = some 1 :=
  ((scanFor_first_checked_occurrence [5, 1, 2, 3, 4, 9] [1, 2, 3, 4]
    (by decide)).1 1).mpr (by decide)

/-- Claim C7 counterexample.  `fileC7` starts with four bytes that are not
    the network magic, yet `readRawBlocksFromFile` only logs the
    wrong-network error and goes on to deliver the magic-framed block the
    file contains: the file is not skipped. -/
theorem wrong_magic_file_still_processed :
    (readRawBlocksFromFile fileC7 magicEx 0 14).wrongNetwork = true ∧
    (readRawBlocksFromFile fileC7 magicEx 0 14).blocks = [⟨0, 2, [7, 7]⟩] :=
  ⟨rfl, rfl⟩

/-- Claim C7 (corrected).  For a file whose first four bytes differ from
    the network magic: `readRawBlocksFromFile` logs the wrong-network error
    but does not skip the file - its deliveries are exactly those of the
    read loop, unaffected by the check - while `readHeadersFromFile` throws
    a `runtime_error` before reading any header (an exception its callers in
    this file do not catch per-file). -/
theorem wrong_magic_logged_not_skipped (file magicBytes : List Byte)
    (bfo stop : Nat) (hm : file.take 4 ≠ magicBytes) (hrun : bfo < stop) :
    (readRawBlocksFromFile file magicBytes bfo stop).wrongNetwork = true ∧
    (readRawBlocksFromFile file magicBytes bfo stop).blocks
      = (rawBlockLoop file magicBytes stop (file.length + 1) bfo bfo).1 ∧
    readHeadersFromFile file magicBytes bfo = Except.error "wrong network" := by
  have hnot : ¬ bfo ≥ stop := Nat.not_le.mpr hrun
  rw [readRawBlocksFromFile, readHeadersFromFile, if_neg hnot, if_pos hm]
  exact ⟨by simp [hm], rfl, rfl⟩

/-- Witness for `wrong_magic_logged_not_skipped` at `fileC7`. -/
theorem wrong_magic_logged_not_skipped_w :
    (readRawBlocksFromFile fileC7 magicEx 0 14).wrongNetwork = true ∧
    readHeadersFromFile fileC7 magicEx 0 = Except.error "wrong network" := by
  have h := wrong_magic_logged_not_skipped fileC7 magicEx 0 14 (by decide) (by decide)
  exact ⟨h.1, h.2.2⟩

/-- A successful `detectLoop` run appends to the accumulated vector exactly
    the consecutive existing files starting at `n`, accumulating their
    sizes, and it appends at least one file when `blk(n)` exists. -/
theorem detectLoop_ok (fs : Nat → Option Nat) :
    ∀ (fuel n : Nat) (files : List BlkFile) (total : Nat)
      (files2 : List BlkFile) (total2 : Nat),
      detectLoop fs fuel n files total = Except.ok (files2, total2) →
      ∃ rest, files2 = files ++ rest ∧
        total2 = total + (rest.map BlkFile.filesize).sum ∧
        (∀ i (hi : i < rest.length),
          rest[i].fnum = n + i ∧ fs (n + i) = some (rest[i].filesize)) ∧
        (∀ s, fs n = some s → ∃ r rs, rest = r :: rs ∧ r.filesize = s) := by
  intro fuel
  induction fuel with
  | zero =>
    intro n files total f2 t2 h
    rw [detectLoop] at h
    exact Except.noConfusion h
  | succ fuel ih =>
    intro n files total f2 t2 h
    rw [detectLoop] at h
    cases hfs : fs n with
    | none =>
      rw [hfs] at h
      obtain ⟨hf, ht⟩ := Prod.mk.injEq .. ▸ Except.ok.inj h
      refine ⟨[], by rw [← hf, List.append_nil], by rw [← ht]; simp, ?_, ?_⟩
      · intro i hi; exact absurd hi (by simp)
      · intro s hs; exact Option.noConfusion hs
    | some sz =>
      rw [hfs] at h
      obtain ⟨rest, hf, ht, hidx, -⟩ := ih (n + 1) (files ++ [⟨n, sz, total⟩]) (total + sz) f2 t2 h
      refine ⟨⟨n, sz, total⟩ :: rest, ?_, ?_, ?_, ?_⟩
      · rw [hf, List.append_assoc]; rfl
      · rw [ht, List.map_cons, List.sum_cons]; simp only [BlkFile.filesize]; omega
      · intro i hi
        cases i with
        | zero => exact ⟨by simp, by simpa using hfs⟩
        | succ j =>
          have hj : j < rest.length := by simpa using hi
          have := hidx j hj
          refine ⟨?_, ?_⟩
          · rw [List.getElem_cons_succ]; rw [this.1]; omega
          · rw [List.getElem_cons_succ]
            have harith : n + 1 + j = n + (j + 1) := by omega
            rw [← harith]; exact this.2
      · intro s hs
        exact ⟨⟨n, sz, total⟩, rest, rfl, Option.some.inj hs⟩

/-- `getLastD` of a non-empty list is its last element. -/
theorem getLastD_eq_getElem {α : Type} (l : List α) (d : α) (h : l ≠ [])
    (hl : l.length - 1 < l.length) :
    l.getLastD d = l[l.length - 1] := by
  rw [List.getLastD_eq_getLast?, List.getLast?_eq_getLast _ h,
    List.getLast_eq_getElem]
  rfl

/-- One `detectAllBlkFiles` call from a consistent state: the result is
    again consistent, is a gapless prefix `blk00000 .. blk(N-1)`, and the
    file count and byte total did not decrease. -/
theorem detect_step (fs : Nat → Option Nat) (st st2 : BlkFilesState)
    (hg : GoodState fs st)
    (hd : detectAllBlkFiles fs st = Except.ok st2) :
    GoodState fs st2 ∧
    (∀ i (hi : i < st2.blkFiles.length), st2.blkFiles[i].fnum = i) ∧
    st.blkFiles.length ≤ st2.blkFiles.length ∧
    st.totalBlockchainBytes ≤ st2.totalBlockchainBytes := by
  rw [detectAllBlkFiles] at hd
  by_cases hlen : st.blkFiles.length > 0
  · -- the state holds files: the last one is popped and rescanned
    have hne : st.blkFiles ≠ [] := List.length_pos.mp hlen
    have hLlt : st.blkFiles.length - 1 < st.blkFiles.length := by omega
    -- the popped entry is the recorded last file
    have hlastD : st.blkFiles.getLastD ⟨0, 0, 0⟩
        = st.blkFiles[st.blkFiles.length - 1] :=
      getLastD_eq_getElem st.blkFiles ⟨0, 0, 0⟩ hne hLlt
    obtain ⟨hfnumL, szL, hfsL, hleL⟩ := hg.1 (st.blkFiles.length - 1) hLlt
    -- the recorded total splits into the dropLast part and the last size
    have hsplit : st.blkFiles.dropLast ++ [st.blkFiles[st.blkFiles.length - 1]]
        = st.blkFiles := by
      have := List.dropLast_append_getLast hne
      rwa [List.getLast_eq_getElem] at this
    have htotal : st.totalBlockchainBytes
        = (st.blkFiles.dropLast.map BlkFile.filesize).sum
          + st.blkFiles[st.blkFiles.length - 1].filesize := by
      conv_lhs => rw [hg.2, ← hsplit]
      rw [List.map_append, List.sum_append]
      simp
    simp only [if_pos hlen] at hd
    rw [hlastD] at hd
    cases hloop : detectLoop fs (UINT16_MAX - (st.blkFiles.length - 1))
        (st.blkFiles.length - 1) st.blkFiles.dropLast
        (st.totalBlockchainBytes - st.blkFiles[st.blkFiles.length - 1].filesize) with
    | error e => rw [hloop] at hd; exact Except.noConfusion hd
    | ok ft =>
      rw [hloop] at hd
      obtain rfl : (⟨ft.1, ft.2⟩ : BlkFilesState) = st2 := Except.ok.inj hd
      obtain ⟨rest, hf, ht, hidx, hfirst⟩ :=
        detectLoop_ok fs _ _ _ _ ft.1 ft.2 (by rw [hloop])
      have hdropLen : st.blkFiles.dropLast.length = st.blkFiles.length - 1 :=
        List.length_dropLast st.blkFiles
      have htot0 : st.totalBlockchainBytes
            - st.blkFiles[st.blkFiles.length - 1].filesize
          = (st.blkFiles.dropLast.map BlkFile.filesize).sum := by omega
      obtain ⟨r, rs, hrest, hrsz⟩ := hfirst szL hfsL
      -- gapless prefix
      have hgap : ∀ i (hi : i < ft.1.length), ft.1[i].fnum = i := by
        intro i hi
        simp only [hf] at hi ⊢
        by_cases hcase : i < st.blkFiles.dropLast.length
        · rw [List.getElem_append_left hcase]
          have hi2 : i < st.blkFiles.length := by omega
          have hfn := (hg.1 i hi2).1
          have hdl : st.blkFiles.dropLast[i] = st.blkFiles[i] :=
            List.getElem_dropLast st.blkFiles i hcase
          rw [hdl, hfn]
        · have hge : st.blkFiles.dropLast.length ≤ i := Nat.le_of_not_lt hcase
          rw [List.getElem_append_right hge]
          have hj : i - st.blkFiles.dropLast.length < rest.length := by
            rw [List.length_append] at hi; omega
          have h1 := (hidx _ hj).1
          rw [h1]
          omega
      refine ⟨⟨?_, ?_⟩, hgap, ?_, ?_⟩
      · -- GoodState: every recorded file still exists, at least as large
        intro i hi
        refine ⟨hgap i hi, ?_⟩
        simp only [hf] at hi ⊢
        by_cases hcase : i < st.blkFiles.dropLast.length
        · rw [List.getElem_append_left hcase]
          have hi2 : i < st.blkFiles.length := by omega
          obtain ⟨-, sz, hfs2, hle2⟩ := hg.1 i hi2
          have hdl : st.blkFiles.dropLast[i] = st.blkFiles[i] :=
            List.getElem_dropLast st.blkFiles i hcase
          exact ⟨sz, hfs2, by rw [hdl]; exact hle2⟩
        · have hge : st.blkFiles.dropLast.length ≤ i := Nat.le_of_not_lt hcase
          rw [List.getElem_append_right hge]
          have hj : i - st.blkFiles.dropLast.length < rest.length := by
            rw [List.length_append] at hi; omega
          obtain ⟨-, hfs2⟩ := hidx _ hj
          have harith : st.blkFiles.length - 1 + (i - st.blkFiles.dropLast.length)
              = i := by omega
          rw [harith] at hfs2
          exact ⟨rest[i - st.blkFiles.dropLast.length].filesize, hfs2, Nat.le_refl _⟩
      · -- GoodState: the byte total is the sum of the recorded sizes
        simp only [hf, ht, htot0, List.map_append, List.sum_append]
      · -- the file count does not decrease
        simp only [hf, List.length_append, hdropLen, hrest, List.length_cons]
        omega
      · -- the byte total does not decrease
        simp only [ht, htot0, hrest, List.map_cons, List.sum_cons, hrsz]
        have hlast_le : st.blkFiles[st.blkFiles.length - 1].filesize ≤ szL := hleL
        omega
  · -- empty state: scan from scratch
    have hnil : st.blkFiles = [] := List.length_eq_zero.mp (by omega)
    have htot0 : st.totalBlockchainBytes = 0 := by
      rw [hg.2, hnil]; rfl
    simp only [if_neg hlen] at hd
    rw [hnil] at hd
    cases hloop : detectLoop fs (UINT16_MAX - 0) 0 [] st.totalBlockchainBytes with
    | error e => rw [hloop] at hd; exact Except.noConfusion hd
    | ok ft =>
      rw [hloop] at hd
      obtain rfl : (⟨ft.1, ft.2⟩ : BlkFilesState) = st2 := Except.ok.inj hd
      obtain ⟨rest, hf, ht, hidx, -⟩ :=
        detectLoop_ok fs _ _ _ _ ft.1 ft.2 (by rw [hloop])
      rw [List.nil_append] at hf
      have hgap : ∀ i (hi : i < ft.1.length), ft.1[i].fnum = i := by
        intro i hi
        simp only [hf] at hi ⊢
        have := (hidx i hi).1
        omega
      refine ⟨⟨?_, ?_⟩, hgap, ?_, ?_⟩
      · intro i hi
        refine ⟨hgap i hi, ?_⟩
        simp only [hf] at hi ⊢
        obtain ⟨-, hfs2⟩ := hidx i hi
        exact ⟨rest[i].filesize, by simpa using hfs2, Nat.le_refl _⟩
      · simp only [hf, ht, htot0]; omega
      · rw [hnil]; exact Nat.zero_le _
      · rw [ht, htot0]; exact Nat.zero_le _

/-- Consistency is preserved when files only grow or get appended. -/
theorem goodState_grow (fs1 fs2 : Nat → Option Nat) (st : BlkFilesState)
    (hgrow : ∀ n s, fs1 n = some s → ∃ t, fs2 n = some t ∧ s ≤ t)
    (hg : GoodState fs1 st) : GoodState fs2 st := by
  refine ⟨fun i hi => ?_, hg.2⟩
  obtain ⟨hfnum, sz, hfs, hle⟩ := hg.1 i hi
  obtain ⟨t, hfs2, hst⟩ := hgrow i sz hfs
  exact ⟨hfnum, t, hfs2, Nat.le_trans hle hst⟩

/-- Claim C8 (confirmed).  Two consecutive successful `detectAllBlkFiles`
    calls, the directory only growing in between (files appended or grown,
    never shrunk or removed): both detected sets are gapless prefixes
    `blk00000.dat .. blk(N-1).dat`, `numBlockFiles()` and
    `totalBlockchainBytes()` do not decrease from the first call to the
    second, and the second state is again consistent, so the argument
    extends to any sequence of calls. -/
theorem detect_gapless_monotone (fs1 fs2 : Nat → Option Nat)
    (st0 st1 st2 : BlkFilesState)
    (hg : GoodState fs1 st0)
    (hgrow : ∀ n s, fs1 n = some s → ∃ t, fs2 n = some t ∧ s ≤ t)
    (h1 : detectAllBlkFiles fs1 st0 = Except.ok st1)
    (h2 : detectAllBlkFiles fs2 st1 = Except.ok st2) :
    (∀ i (hi : i < st1.blkFiles.length), st1.blkFiles[i].fnum = i) ∧
    (∀ i (hi : i < st2.blkFiles.length), st2.blkFiles[i].fnum = i) ∧
    st1.blkFiles.length ≤ st2.blkFiles.length ∧
    st1.totalBlockchainBytes ≤ st2.totalBlockchainBytes ∧
    GoodState fs2 st2 := by
  obtain ⟨hg1, hgap1, -, -⟩ := detect_step fs1 st0 st1 hg h1
  have hg1b := goodState_grow fs1 fs2 st1 hgrow hg1
  obtain ⟨hg2, hgap2, hlen, htot⟩ := detect_step fs2 st1 st2 hg1b h2
  exact ⟨hgap1, hgap2, hlen, htot, hg2⟩

/-- Witness for `detect_gapless_monotone`: a one-file directory whose file
    grows from 10 to 12 bytes while a 5-byte second file appears. -/
theorem detect_gapless_monotone_w :
    st1Ex.blkFiles.length ≤ st2Ex.blkFiles.length ∧
    st1Ex.totalBlockchainBytes ≤ st2Ex.totalBlockchainBytes := by
  have h := detect_gapless_monotone fs1Ex fs2Ex st0Ex st1Ex st2Ex
    (by constructor
        · intro i hi; exact absurd hi (by simp [st0Ex])
        · rfl)
    (by intro n s hs
        by_cases hn : n = 0
        · subst hn
          refine ⟨12, rfl, ?_⟩
          have : 10 = s := by simpa [fs1Ex] using hs
          omega
        · exact absurd hs (by simp [fs1Ex, hn]))
    rfl rfl
  exact ⟨h.2.2.1, h.2.2.2.1⟩

end Armory
